import Mathlib

/-!
Verification of the chemfiles infrastructure core: the connectivity model
(`src/Topology.cpp`), the format registry (`src/FormatFactory.cpp`), and the
TRR trajectory file adapter (`src/files/TRRFile.cpp`), shallowly embedded in
Lean. Exceptions of the C++ code are modelled with `Except`, the five error
classes of `include/chemfiles/Error.hpp` as an inductive error type, and
member functions as pure state-passing functions.
-/

namespace Chemfiles

/-- The error taxonomy of `include/chemfiles/Error.hpp`: the base `Error`
(generic invariant error) and its four subclasses. Each carries its
`what()` message. -/
inductive CError where
  | generic (msg : String)
  | file (msg : String)
  | memory (msg : String)
  | format (msg : String)
  | plugin (msg : String)
deriving Repr, DecidableEq

/-! ## Connectivity model (`src/Topology.cpp`) -/

/-- Modelled from the spec: the Atom entity (its header is not part of the
excerpt). The spec only distinguishes a "defined" atom from the
`Atom::UNDEFINED` placeholder used by `resize`; a defined atom carries its
name. -/
inductive Atom where
  | undefined : Atom
  | defined (name : String) : Atom
deriving Repr, DecidableEq

/-- Modelled from the spec: a Bond is an unordered edge between two atom
indices, stored as an ordered pair (`bond[0] ≤ bond[1]`, as the sorted
storage of the connectivity set keeps it). `low` is `bond[0]`, `high` is
`bond[1]`. -/
structure Bond where
  low : Nat
  high : Nat
deriving Repr, DecidableEq

/-- The `Bond(i, j)` constructor, normalising the unordered pair. -/
def Bond.make (i j : Nat) : Bond := ⟨min i j, max i j⟩

/-- Modelled from the spec: erasing one bond from the connectivity's sorted
bond set (`Connectivity::remove_bond`); removes the first occurrence. -/
def eraseBond : List Bond → Bond → List Bond
  | [], _ => []
  | c :: rest, b => if c = b then rest else c :: eraseBond rest b

/-- A Topology owns the ordered atom sequence `atoms_` and (through its
`Connectivity` member `connect_`) the bond set, modelled as the list
underlying the sorted set. -/
structure Topology where
  atoms_ : List Atom
  bonds_ : List Bond
deriving Repr, DecidableEq

def Topology.natoms (t : Topology) : Nat := t.atoms_.length

/-- `std::vector::resize(n, fill)`: truncate to `n` elements or extend with
copies of `fill`. -/
def listResize (l : List α) (n : Nat) (fill : α) : List α :=
  if n ≤ l.length then l.take n else l ++ List.replicate (n - l.length) fill

/-- `Topology::resize` (`src/Topology.cpp:14-24`): scan the bonds and throw
an `Error` on the first bond with an endpoint `≥ natoms`; otherwise resize
the atom vector, filling with `Atom(Atom::UNDEFINED)`. -/
def Topology.resize (t : Topology) (natoms : Nat) : Except CError Topology :=
  match t.bonds_.find? (fun b => natoms ≤ b.low || natoms ≤ b.high) with
  | some bond => .error (.generic
      ("Can not resize the topology to " ++ toString natoms ++
       " as there is a bond between atoms " ++ toString bond.low ++
       "-" ++ toString bond.high ++ "."))
  | none => .ok { t with atoms_ := listResize t.atoms_ natoms Atom.undefined }

/-- `Topology::append` (`src/Topology.cpp:26-28`). -/
def Topology.append (t : Topology) (atom : Atom) : Topology :=
  { t with atoms_ := t.atoms_ ++ [atom] }

/-- `Topology::remove` (`src/Topology.cpp:34-42`): erase the atom at `idx`
from the atom vector, then loop over a snapshot copy of the bond set and
call `remove_bond` on every bond having `idx` as an endpoint. -/
def Topology.remove (t : Topology) (idx : Nat) : Topology :=
  let bonds := t.bonds_
  { atoms_ := t.atoms_.eraseIdx idx,
    bonds_ := bonds.foldl
      (fun connect b =>
        if b.low == idx || b.high == idx then eraseBond connect b else connect)
      t.bonds_ }

/-! ## Format registry (`src/FormatFactory.cpp`) -/

/-- Modelled from the spec: `File::Mode` — Read, Write or Append. -/
inductive FileMode where
  | read | write | append
deriving Repr, DecidableEq

/-- Modelled from the spec: `File::Compression` — one of None (the
default), Gzip, Bzip2, Xz. -/
inductive FileCompression where
  | default | gzip | bzip2 | xz
deriving Repr, DecidableEq

/-- Modelled from the spec: `FormatInfo` — unique name (never empty),
extension (unique when non-empty; the empty string models "no extension"),
human-readable description. -/
structure FormatInfo where
  name : String
  extension : String
  description : String
deriving Repr, DecidableEq

/-- Modelled from the spec: the argument triple of an in-memory
constructor (`std::shared_ptr<MemoryBuffer>`, `File::Mode`,
`File::Compression`); the buffer is opaque. -/
structure MemArgs where
  buffer : Nat
  mode : FileMode
  compression : FileCompression
deriving Repr, DecidableEq

/-- Modelled from the spec: the `Format` object built by a constructor is
opaque to the registry. -/
inductive FormatObj where
  | mk
deriving Repr, DecidableEq

/-- Modelled from the spec: a disk-backed creator closure
(`format_creator_t`) is opaque to the registry; an identifier token. -/
abbrev format_creator_t := Nat

/-- `memory_stream_t`: an in-memory constructor, which may throw. -/
abbrev memory_stream_t := MemArgs → Except CError FormatObj

/-- One entry of the registry vector: `RegisteredFormat`. -/
structure RegisteredFormat where
  info : FormatInfo
  creator : format_creator_t
  memory_stream_creator : memory_stream_t

instance : Inhabited RegisteredFormat :=
  ⟨⟨⟨"", "", ""⟩, 0, fun _ => .error (.format "")⟩⟩

/-- `find_by_name` (`src/FormatFactory.cpp:235-242`): the index of the
first registered format whose name equals `name` exactly (case-sensitive
`==` on `std::string`), `none` for the C++ `SENTINEL_INDEX`. -/
def find_by_name (formats : List RegisteredFormat) (name : String) : Option Nat :=
  formats.findIdx? (fun f => f.info.name == name)

/-- `find_by_extension` (`src/FormatFactory.cpp:244-251`). -/
def find_by_extension (formats : List RegisteredFormat) (extension : String) :
    Option Nat :=
  formats.findIdx? (fun f => f.info.extension == extension)

/-- `std::tolower`-based case-insensitive character comparison used in the
inner loop of `edit_distance`. -/
def lowerEq (a b : Char) : Bool := a.toLower == b.toLower

/-- One row step of the Wagner–Fischer loop in `edit_distance`
(`src/FormatFactory.cpp:177-206`): given row `i` of the `distances` matrix
as `prev` (`prev j = distances[i][j]`), this is row `i + 1`;
`distances[i+1][0] = i + 1` and cell `(i+1, j+1)` is computed from the
three neighbour cells exactly as in the loop body (which compares
`tolower(first[(i+1)-1])` with `tolower(second[(j+1)-1])`). -/
def distRow (a b : List Char) (i : Nat) (prev : Nat → Nat) : Nat → Nat
  | 0 => i + 1
  | j + 1 =>
    if lowerEq (a.getD i ' ') (b.getD j ' ') then prev j
    else min (min (prev (j + 1) + 1) (distRow a b i prev j + 1)) (prev j + 1)

/-- The `distances` matrix of `edit_distance`, row by row:
`distMat a b i j = distances[i][j]`; row 0 is `distances[0][j] = j`. -/
def distMat (a b : List Char) : Nat → Nat → Nat
  | 0 => fun j => j
  | i + 1 => distRow a b i (distMat a b i)

/-- `edit_distance` (`src/FormatFactory.cpp:177-206`): the value
`distances[m-1][n-1]` of the `m × n` matrix with `m = first.length + 1`,
`n = second.length + 1`. -/
def edit_distance (first second : String) : Nat :=
  distMat first.data second.data first.length second.length

/-- The suggestion-collection loop of `suggest_names`
(`src/FormatFactory.cpp:208-214`): every registered name within edit
distance < 4 of the query, in registration order. -/
def collect_suggestions (formats : List RegisteredFormat) (name : String) :
    List String :=
  formats.foldr
    (fun other acc =>
      if edit_distance name other.info.name < 4 then other.info.name :: acc
      else acc)
    []

/-- The message-building loop of `suggest_names`: the first suggestion is
printed as ` 'A'`, every later one as ` or 'B'`. -/
def joinSuggestions : List String → String
  | [] => ""
  | s :: rest =>
    " '" ++ s ++ "'" ++ String.join (rest.map (fun r => " or '" ++ r ++ "'"))

/-- `suggest_names` (`src/FormatFactory.cpp:208-233`). -/
def suggest_names (formats : List RegisteredFormat) (name : String) : String :=
  let suggestions := collect_suggestions formats name
  let message := "can not find a format named '" ++ name ++ "'"
  if suggestions.isEmpty then message
  else message ++ ", did you mean" ++ joinSuggestions suggestions ++ "?"

/-- `FormatFactory::register_format` (`src/FormatFactory.cpp:89-118`),
acting on the registry vector held under the mutex guard. The C++ function
throws before the `push_back` on every failure path, so the (unchanged)
registry value is kept by the caller and the new vector is produced only on
success. -/
def register_format (formats : List RegisteredFormat) (info : FormatInfo)
    (creator : format_creator_t) (memory_stream : memory_stream_t) :
    Except CError (List RegisteredFormat) :=
  if info.name = "" then
    .error (.format "can not register a format with no name")
  else
    match find_by_name formats info.name with
    | some _ =>
      .error (.format ("there is already a format associated with the name '"
        ++ info.name ++ "'"))
    | none =>
      if info.extension ≠ "" then
        match find_by_extension formats info.extension with
        | some idx =>
          .error (.format ("the extension '" ++ info.extension
            ++ "' is already associated with format '"
            ++ (formats.getD idx default).info.name ++ "'"))
        | none => .ok (formats ++ [⟨info, creator, memory_stream⟩])
      else .ok (formats ++ [⟨info, creator, memory_stream⟩])

/-- The two-argument `register_format` overload
(`src/FormatFactory.cpp:120-126`): registers with an in-memory constructor
that always throws a `FormatError` naming the format. -/
def register_format_no_memory (formats : List RegisteredFormat)
    (info : FormatInfo) (creator : format_creator_t) :
    Except CError (List RegisteredFormat) :=
  register_format formats info creator
    (fun _ => .error (.format ("in-memory IO is not supported for the '"
      ++ info.name ++ "' format")))

/-- `FormatFactory::name` (`src/FormatFactory.cpp:128-138`): lookup of a
creator by exact name, with fuzzy-match diagnostics on failure. -/
def FormatFactory.name (formats : List RegisteredFormat) (name : String) :
    Except CError format_creator_t :=
  match find_by_name formats name with
  | none => .error (.format (suggest_names formats name))
  | some idx => .ok (formats.getD idx default).creator

/-- `FormatFactory::formats` (`src/FormatFactory.cpp:166-174`): the listing
snapshot, in registration order. -/
def formats_info (formats : List RegisteredFormat) : List FormatInfo :=
  formats.map (fun f => f.info)

/-- A sample in-memory constructor, used for concrete registry states. -/
def noMemoryStream : memory_stream_t := fun _ => .error (.format "unsupported")

/-- A sample registry entry (the XYZ format), used for concrete registry
states. -/
def xyzEntry : RegisteredFormat := ⟨⟨"XYZ", ".xyz", "XYZ text format"⟩, 7, noMemoryStream⟩

/-! ## Reference edit distance and alignments (for claims C5 and C9) -/

/-- The classic recursive Levenshtein edit distance with unit
insertion/deletion/substitution cost and case-insensitive character
comparison: the specification-side reference definition of "classic
Wagner–Fischer edit distance" that the `edit_distance` dynamic program is
proved to compute. -/
def lev : List Char → List Char → Nat
  | [], ys => ys.length
  | _ :: xs, [] => xs.length + 1
  | x :: xs, y :: ys =>
    if lowerEq x y then lev xs ys
    else min (min (lev xs (y :: ys) + 1) (lev (x :: xs) ys + 1)) (lev xs ys + 1)
termination_by xs ys => xs.length + ys.length
decreasing_by all_goals simp_arith

/-- An edit alignment between two character lists together with its cost:
`Align xs ys n` holds when `xs` turns into `ys` by copying characters that
match case-insensitively plus `n` unit-cost substitutions, deletions and
insertions. `lev` is the minimum alignment cost. -/
inductive Align : List Char → List Char → Nat → Prop where
  | nil : Align [] [] 0
  | copy {x y : Char} {xs ys : List Char} {n : Nat} :
      lowerEq x y = true → Align xs ys n → Align (x :: xs) (y :: ys) n
  | subst {x y : Char} {xs ys : List Char} {n : Nat} :
      Align xs ys n → Align (x :: xs) (y :: ys) (n + 1)
  | del {x : Char} {xs ys : List Char} {n : Nat} :
      Align xs ys n → Align (x :: xs) ys (n + 1)
  | ins {y : Char} {xs ys : List Char} {n : Nat} :
      Align xs ys n → Align xs (y :: ys) (n + 1)

/-! ## TRR trajectory adapter (`src/files/TRRFile.cpp`) -/

/-- The `exdrOK` status of the external `xdrfile` TRR library (0; the
error statuses follow in enum order). -/
def exdrOK : Int := 0

/-- The thirteen error statuses enumerated (as `exdrHEADER` …
`exdrFILENOTFOUND`, `exdrNR`) in the `switch` of `check_trr_error`
(`src/files/TRRFile.cpp:48-72`), by their enum values 1 … 13. -/
def trrErrorCodes : List Int := [1, 2, 3, 4, 5, 6, 7, 8, 9, 10, 11, 12, 13]

/-- `check_trr_error` (`src/files/TRRFile.cpp:48-72`): every listed error
status throws a `FileError` naming the failing call and quoting
`exdr_message[status]` (the message table of the external library, passed
here as a function); `exdrOK` does nothing; any other value throws an
"unknown status code" `FileError`. -/
def check_trr_error (exdr_message : Int → String) (status : Int)
    (function : String) : Except CError Unit :=
  if status ∈ trrErrorCodes then
    .error (.file ("error while calling " ++ function
      ++ " in the TRR library: " ++ exdr_message status))
  else if status = exdrOK then .ok ()
  else
    .error (.file ("unknown status code from TRR library: " ++ toString status))

/-- The header data recovered by `read_trr_header`: atom count, frame
count, and the per-frame byte-offset table. -/
structure HeaderData where
  natoms : Int
  nframes : Nat
  offsets : List Int
deriving Repr, DecidableEq

/-- The state of a constructed `TRRFile` adapter (the native handle is
implicit: it exists whenever construction succeeded). -/
structure TRRFile where
  natoms_ : Int
  nframes_ : Nat
  offsets_ : List Int
deriving Repr, DecidableEq

/-- `TRRFile::offset` (`src/files/TRRFile.cpp:42`): the unchecked array
access `offsets_[step]`, totalised with `Option` (`none` is the
out-of-bounds branch that the C++ code does not check). -/
def TRRFile.offset (f : TRRFile) (step : Nat) : Option Int := f.offsets_[step]?

/-- `TRRFile::nframes` (`src/files/TRRFile.cpp:40`). -/
def TRRFile.nframes (f : TRRFile) : Nat := f.nframes_

/-- The operation name the `CHECK` macro stringifies for the header read
in the read-mode constructor. -/
def readHeaderCall : String :=
  "read_trr_header(this->path().c_str(), &natoms_, &nframes_, &offsets_)"

/-- `TRRFile::TRRFile` (`src/files/TRRFile.cpp:14-33`). The outcomes of
the external calls are passed in: `headerStatus` and `header` are the
status and data produced by `read_trr_header`, and `openOk` says whether
`xdrfile_open` returned a handle. In read mode the header status goes
through `CHECK` (i.e. `check_trr_error`); in append mode the return value
is deliberately not checked ("because the file might not exist" — the
header data is still used); in write mode no header is read and the
members keep their default values. -/
def TRRFile.construct (exdr_message : Int → String) (path : String)
    (mode : FileMode) (headerStatus : Int) (header : HeaderData)
    (openOk : Bool) : Except CError TRRFile :=
  let headerResult : Except CError HeaderData :=
    match mode with
    | .read =>
      match check_trr_error exdr_message headerStatus readHeaderCall with
      | .ok _ => .ok header
      | .error e => .error e
    | .write => .ok ⟨0, 0, []⟩
    | .append => .ok header
  match headerResult with
  | .error e => .error e
  | .ok h =>
    if openOk then .ok ⟨h.natoms, h.nframes, h.offsets⟩
    else .error (.file ("could not open the file at " ++ path))

/-! ### Lemmas about the topology operations -/

theorem listResize_length (l : List α) (n : Nat) (fill : α) :
    (listResize l n fill).length = n := by
  unfold listResize
  split
  · simpa using by omega
  · simp; omega

theorem listResize_getElem? (l : List α) (n : Nat) (fill : α) (i : Nat) (hi : i < n) :
    (listResize l n fill)[i]? = if i < l.length then l[i]? else some fill := by
  unfold listResize
  split
  · rw [List.getElem?_take, if_pos hi, if_pos (by omega)]
  · rename_i hlen
    by_cases hil : i < l.length
    · rw [if_pos hil, List.getElem?_append, if_pos hil]
    · rw [if_neg hil]
      rw [List.getElem?_append_right (by omega)]
      rw [List.getElem?_replicate, if_pos (by omega)]

theorem eraseBond_append_cons (fp rest : List Bond) (b : Bond) (hb : b ∉ fp) :
    eraseBond (fp ++ b :: rest) b = fp ++ rest := by
  induction fp with
  | nil => simp [eraseBond]
  | cons c fp ih =>
    have hcb : ¬(c = b) := fun h => hb (h ▸ List.mem_cons_self c fp)
    simp only [List.cons_append, eraseBond, if_neg hcb]
    show c :: eraseBond (fp ++ b :: rest) b = c :: (fp ++ rest)
    rw [ih (fun h => hb (List.mem_cons_of_mem c h))]

/-- The `for` loop of `Topology::remove`, iterating over a snapshot of the
bond set and erasing each incident bond, filters out exactly the incident
bonds. Invariant form: `fp` is the already-processed (kept) prefix. -/
theorem removeLoop_eq_filter (idx : Nat) :
    ∀ (rest fp : List Bond), (∀ b ∈ fp, (b.low == idx || b.high == idx) = false) →
    List.foldl
      (fun connect b =>
        if b.low == idx || b.high == idx then eraseBond connect b else connect)
      (fp ++ rest) rest
    = fp ++ rest.filter (fun b => !(b.low == idx || b.high == idx)) := by
  intro rest
  induction rest with
  | nil => intro fp _; simp
  | cons b rest ih =>
    intro fp hfp
    rw [List.foldl_cons]
    by_cases hb : (b.low == idx || b.high == idx) = true
    · rw [if_pos hb]
      have hbfp : b ∉ fp := fun h => by rw [hfp b h] at hb; exact Bool.false_ne_true hb
      rw [eraseBond_append_cons fp rest b hbfp, ih fp hfp]
      rw [List.filter_cons]
      simp [hb]
    · rw [if_neg hb]
      have : fp ++ b :: rest = (fp ++ [b]) ++ rest := by simp
      rw [this, ih (fp ++ [b]) ?_]
      · rw [List.filter_cons]
        have : (!(b.low == idx || b.high == idx)) = true := by
          simp only [Bool.not_eq_true'] at *
          exact Bool.of_not_eq_true hb
        simp [this]
      · intro c hc
        rcases List.mem_append.mp hc with h | h
        · exact hfp c h
        · rw [List.mem_singleton.mp h]
          exact Bool.of_not_eq_true hb

theorem remove_bonds_eq_filter (t : Topology) (idx : Nat) :
    (t.remove idx).bonds_
      = t.bonds_.filter (fun b => !(b.low == idx || b.high == idx)) := by
  have := removeLoop_eq_filter idx t.bonds_ [] (by simp)
  simpa [Topology.remove] using this

theorem resize_error_of_bad_bond (t : Topology) (n : Nat) (b : Bond)
    (hb : b ∈ t.bonds_) (hn : n ≤ b.low ∨ n ≤ b.high) :
    ∃ msg, t.resize n = .error (.generic msg) := by
  unfold Topology.resize
  cases hf : t.bonds_.find? (fun b => n ≤ b.low || n ≤ b.high) with
  | none =>
    exfalso
    have := List.find?_eq_none.mp hf b hb
    simp only [Bool.or_eq_true, decide_eq_true_eq] at this
    exact this (by tauto)
  | some bond => exact ⟨_, rfl⟩

end Chemfiles

/-- C1: `Topology::resize(n)` fails with an invariant error (the base
`Error` class) exactly when some existing bond references an atom index
`≥ n` — in particular for every `m` not above an index referenced by some
bond — and otherwise succeeds, leaving the bond set unchanged and
growing/truncating the atom sequence to length `n`, preserving existing
atoms and filling new slots with `Atom::UNDEFINED`. (In this state-passing
embedding a failing call returns only the error, so the topology is
unchanged by construction.) -/
theorem C1_topology_resize_correct (t : Chemfiles.Topology) (n : Nat) :
    ((∃ b ∈ t.bonds_, n ≤ b.low ∨ n ≤ b.high) →
      ∃ msg, t.resize n = .error (.generic msg)) ∧
    ((∀ b ∈ t.bonds_, b.low < n ∧ b.high < n) →
      ∃ t', t.resize n = .ok t' ∧ t'.bonds_ = t.bonds_ ∧ t'.natoms = n ∧
        ∀ i, i < n →
          t'.atoms_[i]? =
            if i < t.natoms then t.atoms_[i]? else some Chemfiles.Atom.undefined) ∧
    (∀ b ∈ t.bonds_, ∀ m, m ≤ max b.low b.high →
      ∃ msg, t.resize m = .error (.generic msg)) := by
  refine ⟨?_, ?_, ?_⟩
  · rintro ⟨b, hb, hn⟩
    exact Chemfiles.resize_error_of_bad_bond t n b hb hn
  · intro hok
    refine ⟨{ t with atoms_ :=
        Chemfiles.listResize t.atoms_ n Chemfiles.Atom.undefined }, ?_, rfl, ?_, ?_⟩
    · unfold Chemfiles.Topology.resize
      cases hf : t.bonds_.find? (fun b => n ≤ b.low || n ≤ b.high) with
      | none => rfl
      | some bond =>
        exfalso
        have hmem := List.mem_of_find?_eq_some hf
        have hp := List.find?_some hf
        simp only [Bool.or_eq_true, decide_eq_true_eq] at hp
        have := hok bond hmem
        omega
    · exact Chemfiles.listResize_length t.atoms_ n _
    · intro i hi
      exact Chemfiles.listResize_getElem? t.atoms_ n _ i hi
  · intro b hb m hm
    exact Chemfiles.resize_error_of_bad_bond t m b hb (by omega)

/-- Witness for C1, on the topology with three atoms and the single bond
(1, 2): `resize 1` and `resize 2` fail with an invariant error, while
`resize 4` succeeds, keeps the bond set, and pads with undefined atoms. -/
theorem C1_topology_resize_correct_witness :
    (∃ msg, (Chemfiles.Topology.resize
      ⟨[.defined "H", .defined "O", .defined "H"], [⟨1, 2⟩]⟩ 2)
        = .error (.generic msg)) ∧
    (∃ t', (Chemfiles.Topology.resize
      ⟨[.defined "H", .defined "O", .defined "H"], [⟨1, 2⟩]⟩ 4) = .ok t' ∧
      t'.bonds_ = [⟨1, 2⟩] ∧ t'.natoms = 4 ∧
      ∀ i, i < 4 →
        t'.atoms_[i]? =
          if i < (⟨[.defined "H", .defined "O", .defined "H"], [⟨1, 2⟩]⟩ :
              Chemfiles.Topology).natoms
          then ([Chemfiles.Atom.defined "H", .defined "O", .defined "H"])[i]?
          else some Chemfiles.Atom.undefined) ∧
    (∃ msg, (Chemfiles.Topology.resize
      ⟨[.defined "H", .defined "O", .defined "H"], [⟨1, 2⟩]⟩ 1)
        = .error (.generic msg)) := by
  refine ⟨?_, ?_, ?_⟩
  · exact (C1_topology_resize_correct _ 2).1 ⟨⟨1, 2⟩, by simp, by simp⟩
  · exact (C1_topology_resize_correct _ 4).2.1 (by intro b hb; simp at hb; simp [hb])
  · exact (C1_topology_resize_correct _ 1).2.2 ⟨1, 2⟩ (by simp) 1 (by simp)

/-- C6: on the 3-atom topology with exactly the bonds (0,1) and (1,2),
`remove(1)` yields 2 atoms and an empty bond set. -/
theorem C6_remove_middle_atom_example :
    (Chemfiles.Topology.remove
      ⟨[.undefined, .undefined, .undefined], [⟨0, 1⟩, ⟨1, 2⟩]⟩ 1).natoms = 2 ∧
    (Chemfiles.Topology.remove
      ⟨[.undefined, .undefined, .undefined], [⟨0, 1⟩, ⟨1, 2⟩]⟩ 1).bonds_ = [] := by
  constructor <;> rfl

/-- C7: for every valid index `idx`, `Topology::remove(idx)` deletes the
atom at `idx` (later atoms shift down one position) and deletes exactly the
bonds incident to `idx`: the resulting bond list is the original one with
the incident bonds filtered out, so every bond whose endpoints both differ
from `idx` stays, with endpoint indices unchanged (no re-indexing). -/
theorem C7_topology_remove_correct (t : Chemfiles.Topology) (idx : Nat)
    (h : idx < t.natoms) :
    (t.remove idx).natoms = t.natoms - 1 ∧
    (t.remove idx).atoms_ = t.atoms_.take idx ++ t.atoms_.drop (idx + 1) ∧
    (t.remove idx).bonds_
      = t.bonds_.filter (fun b => !(b.low == idx || b.high == idx)) ∧
    (∀ b, b ∈ (t.remove idx).bonds_ ↔
      b ∈ t.bonds_ ∧ b.low ≠ idx ∧ b.high ≠ idx) := by
  refine ⟨?_, ?_, Chemfiles.remove_bonds_eq_filter t idx, ?_⟩
  · show (t.atoms_.eraseIdx idx).length = t.natoms - 1
    have h' : idx < t.atoms_.length := h
    rw [List.length_eraseIdx]
    simp only [h', if_true, if_pos h']
    rfl
  · show t.atoms_.eraseIdx idx = _
    exact List.eraseIdx_eq_take_drop_succ ..
  · intro b
    rw [Chemfiles.remove_bonds_eq_filter t idx, List.mem_filter]
    simp only [Bool.not_eq_true', Bool.or_eq_false_iff, beq_eq_false_iff_ne]

/-- Witness for C7: removing atom 1 from a 4-atom topology with bonds
(0,1), (1,2) and (2,3) keeps exactly the non-incident bond (2,3),
un-renumbered. -/
theorem C7_topology_remove_correct_witness :
    1 < (⟨[.undefined, .undefined, .undefined, .undefined],
          [⟨0, 1⟩, ⟨1, 2⟩, ⟨2, 3⟩]⟩ : Chemfiles.Topology).natoms ∧
    ((Chemfiles.Topology.remove
        ⟨[.undefined, .undefined, .undefined, .undefined],
         [⟨0, 1⟩, ⟨1, 2⟩, ⟨2, 3⟩]⟩ 1).natoms = 4 - 1 ∧
     (Chemfiles.Topology.remove
        ⟨[.undefined, .undefined, .undefined, .undefined],
         [⟨0, 1⟩, ⟨1, 2⟩, ⟨2, 3⟩]⟩ 1).atoms_
       = [Chemfiles.Atom.undefined, .undefined, .undefined, .undefined].take 1
         ++ [Chemfiles.Atom.undefined, .undefined, .undefined, .undefined].drop 2 ∧
     (Chemfiles.Topology.remove
        ⟨[.undefined, .undefined, .undefined, .undefined],
         [⟨0, 1⟩, ⟨1, 2⟩, ⟨2, 3⟩]⟩ 1).bonds_
       = [Chemfiles.Bond.mk 0 1, ⟨1, 2⟩, ⟨2, 3⟩].filter
           (fun b => !(b.low == 1 || b.high == 1)) ∧
     (∀ b, b ∈ (Chemfiles.Topology.remove
        ⟨[.undefined, .undefined, .undefined, .undefined],
         [⟨0, 1⟩, ⟨1, 2⟩, ⟨2, 3⟩]⟩ 1).bonds_ ↔
       b ∈ [Chemfiles.Bond.mk 0 1, ⟨1, 2⟩, ⟨2, 3⟩] ∧ b.low ≠ 1 ∧ b.high ≠ 1)) :=
  ⟨by decide, C7_topology_remove_correct _ 1 (by decide)⟩

namespace Chemfiles

/-! ### Lemmas about the registry operations -/

theorem find_by_name_eq_none (formats : List RegisteredFormat) (nm : String)
    (h : ∀ f ∈ formats, f.info.name ≠ nm) : find_by_name formats nm = none := by
  apply List.findIdx?_eq_none_iff.mpr
  intro f hf
  simpa using h f hf

theorem find_by_name_ne_none (formats : List RegisteredFormat) (nm : String)
    (f : RegisteredFormat) (hf : f ∈ formats) (h : f.info.name = nm) :
    find_by_name formats nm ≠ none := by
  intro hnone
  have := List.findIdx?_eq_none_iff.mp hnone f hf
  simp [h] at this

theorem find_by_name_some (formats : List RegisteredFormat) (nm : String)
    (idx : Nat) (h : find_by_name formats nm = some idx) :
    idx < formats.length ∧
      (formats.getD idx default).info.name = nm ∧
      formats.getD idx default ∈ formats := by
  obtain ⟨hlt, hidx⟩ := List.findIdx?_eq_some_iff_findIdx_eq.mp h
  have hw : List.findIdx (fun f : RegisteredFormat => f.info.name == nm) formats
      < formats.length := by rw [hidx]; exact hlt
  have h2 : ((formats.get
        ⟨List.findIdx (fun f => f.info.name == nm) formats, hw⟩).info.name
      == nm) = true := by
    simpa [List.get_eq_getElem] using
      @List.findIdx_getElem _ (fun f => f.info.name == nm) formats hw
  have hgd : formats.getD idx default = formats.get ⟨idx, hlt⟩ := by
    rw [List.getD_eq_getElem formats default hlt, List.get_eq_getElem]
  have heq : (⟨idx, hlt⟩ : Fin formats.length)
      = ⟨List.findIdx (fun f => f.info.name == nm) formats, hw⟩ := by
    apply Fin.ext
    simp [hidx]
  refine ⟨hlt, ?_, ?_⟩
  · rw [hgd, heq]
    simpa using h2
  · rw [hgd, List.get_eq_getElem]
    exact List.getElem_mem _

theorem find_by_extension_eq_none (formats : List RegisteredFormat)
    (ext : String) (h : ∀ f ∈ formats, f.info.extension ≠ ext) :
    find_by_extension formats ext = none := by
  apply List.findIdx?_eq_none_iff.mpr
  intro f hf
  simpa using h f hf

/-- Shared success case of `register_format`: with a non-empty,
non-colliding name and a non-colliding (or empty) extension, the entry is
appended at the end of the registry vector. -/
theorem register_format_ok (formats : List RegisteredFormat)
    (info : FormatInfo) (c : format_creator_t) (ms : memory_stream_t)
    (h1 : info.name ≠ "") (h2 : ∀ f ∈ formats, f.info.name ≠ info.name)
    (h3 : info.extension = "" ∨ ∀ f ∈ formats, f.info.extension ≠ info.extension) :
    register_format formats info c ms = .ok (formats ++ [⟨info, c, ms⟩]) := by
  unfold register_format
  rw [if_neg h1, find_by_name_eq_none formats info.name h2]
  rcases h3 with h3 | h3
  · rw [if_neg (by simpa using h3)]
  · by_cases hext : info.extension = ""
    · rw [if_neg (by simpa using hext)]
    · rw [if_pos hext, find_by_extension_eq_none formats info.extension h3]

end Chemfiles

/-- C2: `FormatFactory::register_format` fails with a `FormatError` when
the new format's name is empty, when the name is already registered, or
when the extension is non-empty and already registered — leaving the
registry as it was, since the C++ code throws before the `push_back` (in
this state-passing embedding a failing call returns only the error) — and
on success appends the entry at the end, so the `formats()` listing
preserves insertion order. -/
theorem C2_register_format_correct (formats : List Chemfiles.RegisteredFormat)
    (info : Chemfiles.FormatInfo) (c : Chemfiles.format_creator_t)
    (ms : Chemfiles.memory_stream_t) :
    ((info.name = "" ∨ (∃ f ∈ formats, f.info.name = info.name) ∨
        (info.extension ≠ "" ∧ ∃ f ∈ formats, f.info.extension = info.extension)) →
      ∃ msg, Chemfiles.register_format formats info c ms = .error (.format msg)) ∧
    ((info.name ≠ "" ∧ (∀ f ∈ formats, f.info.name ≠ info.name) ∧
        (info.extension = "" ∨ ∀ f ∈ formats, f.info.extension ≠ info.extension)) →
      Chemfiles.register_format formats info c ms = .ok (formats ++ [⟨info, c, ms⟩]) ∧
      Chemfiles.formats_info (formats ++ [⟨info, c, ms⟩])
        = Chemfiles.formats_info formats ++ [info]) := by
  constructor
  · intro hfail
    unfold Chemfiles.register_format
    by_cases h1 : info.name = ""
    · rw [if_pos h1]
      exact ⟨_, rfl⟩
    · rw [if_neg h1]
      cases hn : Chemfiles.find_by_name formats info.name with
      | some idx => exact ⟨_, rfl⟩
      | none =>
        rcases hfail with h | ⟨f, hf, hname⟩ | ⟨hext, f, hf, hxt⟩
        · exact absurd h h1
        · exact absurd hn (Chemfiles.find_by_name_ne_none formats info.name f hf hname)
        · rw [if_pos hext]
          cases he : Chemfiles.find_by_extension formats info.extension with
          | some idx => exact ⟨_, rfl⟩
          | none =>
            exfalso
            have := List.findIdx?_eq_none_iff.mp he f hf
            simp [hxt] at this
  · rintro ⟨h1, h2, h3⟩
    refine ⟨Chemfiles.register_format_ok formats info c ms h1 h2 h3, ?_⟩
    simp [Chemfiles.formats_info]

/-- Witness for C2: on a registry holding only the XYZ format, registering
a name collision ("XYZ"), an extension collision (".xyz"), and an empty
name all fail with a `FormatError`, while a fresh format "PDB"/".pdb" is
appended at the end. -/
theorem C2_register_format_correct_witness :
    ((∃ msg, Chemfiles.register_format [Chemfiles.xyzEntry]
        ⟨"XYZ", "", "dup"⟩ 1 Chemfiles.noMemoryStream = .error (.format msg)) ∧
     (∃ msg, Chemfiles.register_format [Chemfiles.xyzEntry]
        ⟨"GRO", ".xyz", "dup ext"⟩ 2 Chemfiles.noMemoryStream = .error (.format msg)) ∧
     (∃ msg, Chemfiles.register_format [Chemfiles.xyzEntry]
        ⟨"", "", "empty"⟩ 3 Chemfiles.noMemoryStream = .error (.format msg))) ∧
    (Chemfiles.register_format [Chemfiles.xyzEntry]
        ⟨"PDB", ".pdb", "PDB format"⟩ 4 Chemfiles.noMemoryStream
      = .ok ([Chemfiles.xyzEntry] ++ [⟨⟨"PDB", ".pdb", "PDB format"⟩, 4, Chemfiles.noMemoryStream⟩]) ∧
     Chemfiles.formats_info
        ([Chemfiles.xyzEntry] ++ [⟨⟨"PDB", ".pdb", "PDB format"⟩, 4, Chemfiles.noMemoryStream⟩])
      = Chemfiles.formats_info [Chemfiles.xyzEntry] ++ [⟨"PDB", ".pdb", "PDB format"⟩]) := by
  refine ⟨⟨?_, ?_, ?_⟩, ?_⟩
  · exact (C2_register_format_correct _ _ 1 _).1
      (Or.inr (Or.inl ⟨Chemfiles.xyzEntry, by simp, rfl⟩))
  · exact (C2_register_format_correct _ _ 2 _).1
      (Or.inr (Or.inr ⟨by decide, Chemfiles.xyzEntry, by simp, rfl⟩))
  · exact (C2_register_format_correct _ _ 3 _).1 (Or.inl rfl)
  · exact (C2_register_format_correct _ _ 4 _).2
      ⟨by decide, by simp [Chemfiles.xyzEntry], Or.inr (by simp [Chemfiles.xyzEntry])⟩

/-- C8: registering through the two-argument overload (no
`memory_creator`) never fails for that reason — with a fresh non-empty
name (and fresh or absent extension) it succeeds — and the in-memory
constructor it stores fails, on every invocation, with a `FormatError`
saying in-memory IO is not supported for that format's name. -/
theorem C8_register_no_memory_creator (formats : List Chemfiles.RegisteredFormat)
    (info : Chemfiles.FormatInfo) (c : Chemfiles.format_creator_t)
    (h1 : info.name ≠ "") (h2 : ∀ f ∈ formats, f.info.name ≠ info.name)
    (h3 : info.extension = "" ∨ ∀ f ∈ formats, f.info.extension ≠ info.extension) :
    ∃ entry : Chemfiles.RegisteredFormat,
      Chemfiles.register_format_no_memory formats info c = .ok (formats ++ [entry]) ∧
      entry.info = info ∧ entry.creator = c ∧
      ∀ args, entry.memory_stream_creator args =
        .error (.format ("in-memory IO is not supported for the '"
          ++ info.name ++ "' format")) := by
  refine ⟨⟨info, c, fun _ => .error (.format ("in-memory IO is not supported for the '"
    ++ info.name ++ "' format"))⟩, ?_, rfl, rfl, fun _ => rfl⟩
  exact Chemfiles.register_format_ok formats info c _ h1 h2 h3

/-- Witness for C8: registering "DCD" (no extension) on the XYZ-only
registry through the two-argument overload succeeds, and the stored
in-memory constructor throws the "in-memory IO is not supported" error on
a sample invocation argument. -/
theorem C8_register_no_memory_creator_witness :
    ∃ entry : Chemfiles.RegisteredFormat,
      Chemfiles.register_format_no_memory [Chemfiles.xyzEntry] ⟨"DCD", "", "DCD format"⟩ 9
        = .ok ([Chemfiles.xyzEntry] ++ [entry]) ∧
      entry.info = ⟨"DCD", "", "DCD format"⟩ ∧ entry.creator = 9 ∧
      ∀ args, entry.memory_stream_creator args =
        .error (.format "in-memory IO is not supported for the 'DCD' format") :=
  C8_register_no_memory_creator [Chemfiles.xyzEntry] ⟨"DCD", "", "DCD format"⟩ 9
    (by decide) (by simp [Chemfiles.xyzEntry]) (Or.inl rfl)

/-- C4 counterexample: the claim says a non-OK codec status leads to a
raised file error in every code path, including construction in every open
mode. But in append mode the constructor deliberately ignores the status
of `read_trr_header` (`src/files/TRRFile.cpp:24-26`): with the non-OK
status 12 (`exdrFILENOTFOUND`) the append-mode construction succeeds and
raises nothing. -/
theorem C4_append_mode_swallows_header_status :
    (12 : Int) ≠ Chemfiles.exdrOK ∧
    Chemfiles.TRRFile.construct (fun _ => "File not found") "traj.trr"
      .append 12 ⟨0, 0, []⟩ true = .ok ⟨0, 0, []⟩ :=
  ⟨by decide, rfl⟩

/-- C4 (amended): `check_trr_error` translates every status code into a
`FileError` — each of the thirteen enumerated codec statuses into one
carrying the failing operation's name and the codec's own message text,
any other non-OK value into an "unknown status code" error — and `exdrOK`
raises nothing. The read-mode constructor routes the header-read status
through this check (and succeeds on OK), but the append-mode constructor
deliberately ignores that status, and the write-mode constructor performs
no header read. -/
theorem C4_trr_status_translation (msg : Int → String) (status : Int)
    (fn path : String) (hdr : Chemfiles.HeaderData) :
    (Chemfiles.check_trr_error msg Chemfiles.exdrOK fn = .ok ()) ∧
    (status ≠ Chemfiles.exdrOK →
      ∃ m, Chemfiles.check_trr_error msg status fn = .error (.file m)) ∧
    (status ∈ Chemfiles.trrErrorCodes →
      Chemfiles.check_trr_error msg status fn
        = .error (.file ("error while calling " ++ fn
            ++ " in the TRR library: " ++ msg status))) ∧
    (status ≠ Chemfiles.exdrOK → ∀ openOk,
      ∃ m, Chemfiles.TRRFile.construct msg path .read status hdr openOk
        = .error (.file m)) ∧
    (Chemfiles.TRRFile.construct msg path .read Chemfiles.exdrOK hdr true
      = .ok ⟨hdr.natoms, hdr.nframes, hdr.offsets⟩) ∧
    (Chemfiles.TRRFile.construct msg path .append status hdr true
      = .ok ⟨hdr.natoms, hdr.nframes, hdr.offsets⟩) := by
  have hok : ∀ g, Chemfiles.check_trr_error msg Chemfiles.exdrOK g = .ok () := by
    intro g
    unfold Chemfiles.check_trr_error
    rw [if_neg (by decide), if_pos rfl]
  have herr : ∀ g, status ≠ Chemfiles.exdrOK →
      ∃ m, Chemfiles.check_trr_error msg status g = .error (.file m) := by
    intro g hne
    unfold Chemfiles.check_trr_error
    by_cases hmem : status ∈ Chemfiles.trrErrorCodes
    · rw [if_pos hmem]
      exact ⟨_, rfl⟩
    · rw [if_neg hmem, if_neg hne]
      exact ⟨_, rfl⟩
  refine ⟨hok fn, herr fn, ?_, ?_, ?_, rfl⟩
  · intro hmem
    unfold Chemfiles.check_trr_error
    rw [if_pos hmem]
  · intro hne openOk
    obtain ⟨m, hm⟩ := herr Chemfiles.readHeaderCall hne
    refine ⟨m, ?_⟩
    unfold Chemfiles.TRRFile.construct
    simp only [hm]
  · unfold Chemfiles.TRRFile.construct
    simp only [hok Chemfiles.readHeaderCall]
    rfl

/-- Witness for C4 (amended), at the non-OK status 11 (`exdrENDOFFILE`)
with a concrete message table, operation name, path and header. -/
theorem C4_trr_status_translation_witness :
    (Chemfiles.check_trr_error (fun _ => "End of file") Chemfiles.exdrOK
        "read_trr_header" = .ok ()) ∧
    ((11 : Int) ≠ Chemfiles.exdrOK) ∧
    (∃ m, Chemfiles.check_trr_error (fun _ => "End of file") 11
        "read_trr_header" = .error (.file m)) ∧
    ((11 : Int) ∈ Chemfiles.trrErrorCodes) ∧
    (Chemfiles.check_trr_error (fun _ => "End of file") 11 "read_trr_header"
      = .error (.file ("error while calling " ++ "read_trr_header"
          ++ " in the TRR library: " ++ "End of file"))) ∧
    (∃ m, Chemfiles.TRRFile.construct (fun _ => "End of file") "traj.trr"
        .read 11 ⟨5, 3, [0, 80, 160]⟩ true = .error (.file m)) ∧
    (Chemfiles.TRRFile.construct (fun _ => "End of file") "traj.trr"
        .read Chemfiles.exdrOK ⟨5, 3, [0, 80, 160]⟩ true = .ok ⟨5, 3, [0, 80, 160]⟩) ∧
    (Chemfiles.TRRFile.construct (fun _ => "End of file") "traj.trr"
        .append 11 ⟨5, 3, [0, 80, 160]⟩ true = .ok ⟨5, 3, [0, 80, 160]⟩) := by
  obtain ⟨h1, h2, h3, h4, h5, h6⟩ :=
    C4_trr_status_translation (fun _ => "End of file") 11
      "read_trr_header" "traj.trr" ⟨5, 3, [0, 80, 160]⟩
  exact ⟨h1, by decide, h2 (by decide), by decide, h3 (by decide),
    h4 (by decide) true, h5, h6⟩

/-- C10: `TRRFile::offset(step)` is an unchecked read of the frame-offset
table; under the precondition `step < ` (number of offset-table entries)
the `Option`-totalised embedding always takes the in-bounds branch and
returns the `step`-th table entry. -/
theorem C10_trr_offset_in_bounds (f : Chemfiles.TRRFile) (step : Nat)
    (h : step < f.offsets_.length) :
    f.offset step = some (f.offsets_.get ⟨step, h⟩) := by
  unfold Chemfiles.TRRFile.offset
  simp [List.getElem?_eq_getElem h]

/-- Witness for C10: the offset table `[0, 64, 128]` read at step 1. -/
theorem C10_trr_offset_in_bounds_witness :
    1 < ([0, 64, 128] : List Int).length ∧
    Chemfiles.TRRFile.offset ⟨5, 3, [0, 64, 128]⟩ 1 = some 64 :=
  ⟨by decide, by simpa using
    C10_trr_offset_in_bounds ⟨5, 3, [0, 64, 128]⟩ 1 (by decide)⟩

namespace Chemfiles

/-! ### The reference edit distance is the minimum alignment cost -/

theorem lev_nil_right (xs : List Char) : lev xs [] = xs.length := by
  cases xs <;> simp [lev]

theorem align_nil_left : ∀ ys : List Char, Align [] ys ys.length
  | [] => .nil
  | _ :: ys => .ins (align_nil_left ys)

theorem align_nil_right : ∀ xs : List Char, Align xs [] xs.length
  | [] => .nil
  | _ :: xs => .del (align_nil_right xs)

/-- `lev` is realised by some alignment. -/
theorem align_lev : ∀ xs ys : List Char, Align xs ys (lev xs ys) := by
  intro xs ys
  induction xs, ys using lev.induct with
  | case1 ys => simpa [lev] using align_nil_left ys
  | case2 x xs => simpa [lev] using align_nil_right (x :: xs)
  | case3 x xs y ys h ih => rw [lev, if_pos h]; exact .copy h ih
  | case4 x xs y ys h ih1 ih2 ih3 =>
    rw [lev, if_neg h]
    rcases min_choice (min (lev xs (y :: ys) + 1) (lev (x :: xs) ys + 1))
        (lev xs ys + 1) with hm | hm <;> rw [hm]
    · rcases min_choice (lev xs (y :: ys) + 1) (lev (x :: xs) ys + 1)
          with hm2 | hm2 <;> rw [hm2]
      · exact .del ih1
      · exact .ins ih2
    · exact .subst ih3

/-- Any alignment's cost covers the length difference. -/
theorem align_length_bound {xs ys : List Char} {n : Nat} (h : Align xs ys n) :
    ys.length ≤ xs.length + n ∧ xs.length ≤ ys.length + n := by
  induction h with
  | nil => simp
  | copy _ _ ih => simpa using ⟨by omega, by omega⟩
  | subst _ ih => simp; omega
  | del _ ih => simp; omega
  | ins _ ih => simp; omega

/-- Dropping the head of the right-hand list costs at most one more. -/
theorem align_drop_right {xs yys : List Char} {n : Nat} (h : Align xs yys n) :
    ∀ y ys, yys = y :: ys → ∃ m, m ≤ n + 1 ∧ Align xs ys m := by
  induction h with
  | nil => intro y ys hy; cases hy
  | copy hc hsub ih =>
    intro y ys hy
    cases hy
    exact ⟨_, Nat.le_refl _, .del hsub⟩
  | subst hsub ih =>
    intro y ys hy
    cases hy
    exact ⟨_, by omega, .del hsub⟩
  | del hsub ih =>
    intro y ys hy
    cases hy
    obtain ⟨m, hm, halign⟩ := ih y ys rfl
    exact ⟨m + 1, by omega, .del halign⟩
  | ins hsub ih =>
    intro y ys hy
    cases hy
    exact ⟨_, by omega, hsub⟩

/-- Dropping the head of the left-hand list costs at most one more. -/
theorem align_drop_left {xxs ys : List Char} {n : Nat} (h : Align xxs ys n) :
    ∀ x xs, xxs = x :: xs → ∃ m, m ≤ n + 1 ∧ Align xs ys m := by
  induction h with
  | nil => intro x xs hx; cases hx
  | copy hc hsub ih =>
    intro x xs hx
    cases hx
    exact ⟨_, Nat.le_refl _, .ins hsub⟩
  | subst hsub ih =>
    intro x xs hx
    cases hx
    exact ⟨_, by omega, .ins hsub⟩
  | del hsub ih =>
    intro x xs hx
    cases hx
    exact ⟨_, by omega, hsub⟩
  | ins hsub ih =>
    intro x xs hx
    cases hx
    obtain ⟨m, hm, halign⟩ := ih x xs rfl
    exact ⟨m + 1, by omega, .ins halign⟩

/-- When the two heads match case-insensitively, an alignment of the full
lists yields one of the tails that is no more expensive. -/
theorem align_copy_first {x y : Char} {xs ys : List Char} {n : Nat}
    (hxy : lowerEq x y = true) (h : Align (x :: xs) (y :: ys) n) :
    ∃ m, m ≤ n ∧ Align xs ys m := by
  cases h with
  | copy hc hsub => exact ⟨n, Nat.le_refl n, hsub⟩
  | subst hsub => exact ⟨_, Nat.le_succ _, hsub⟩
  | del hsub =>
    obtain ⟨m, hm, halign⟩ := align_drop_right hsub y ys rfl
    exact ⟨m, by omega, halign⟩
  | ins hsub =>
    obtain ⟨m, hm, halign⟩ := align_drop_left hsub x xs rfl
    exact ⟨m, by omega, halign⟩

/-- `lev` is minimal among alignment costs. -/
theorem lev_le_of_align :
    ∀ N xs ys n, xs.length + ys.length ≤ N → Align xs ys n → lev xs ys ≤ n := by
  intro N
  induction N with
  | zero =>
    intro xs ys n hlen h
    have hx : xs = [] := by
      have : xs.length = 0 := by omega
      simpa using this
    have hy : ys = [] := by
      have : ys.length = 0 := by omega
      simpa using this
    subst hx; subst hy
    simpa [lev] using Nat.zero_le n
  | succ N ih =>
    intro xs ys n hlen h
    match xs, ys with
    | [], ys =>
      have := (align_length_bound h).1
      simpa [lev] using this
    | x :: xs, [] =>
      have := (align_length_bound h).2
      simp at this
      simpa [lev_nil_right] using this
    | x :: xs, y :: ys =>
      by_cases hxy : lowerEq x y = true
      · rw [lev, if_pos hxy]
        obtain ⟨m, hm, halign⟩ := align_copy_first hxy h
        have := ih xs ys m (by simp at hlen ⊢; omega) halign
        omega
      · rw [lev, if_neg hxy]
        cases h with
        | copy hc hsub => exact absurd hc hxy
        | subst hsub =>
          have := ih xs ys _ (by simp at hlen ⊢; omega) hsub
          have hmin : min (min (lev xs (y :: ys) + 1) (lev (x :: xs) ys + 1))
              (lev xs ys + 1) ≤ lev xs ys + 1 := min_le_right _ _
          omega
        | del hsub =>
          have := ih xs (y :: ys) _ (by simp at hlen ⊢; omega) hsub
          have hmin : min (min (lev xs (y :: ys) + 1) (lev (x :: xs) ys + 1))
              (lev xs ys + 1) ≤ lev xs (y :: ys) + 1 :=
            le_trans (min_le_left _ _) (min_le_left _ _)
          omega
        | ins hsub =>
          have := ih (x :: xs) ys _ (by simp at hlen ⊢; omega) hsub
          have hmin : min (min (lev xs (y :: ys) + 1) (lev (x :: xs) ys + 1))
              (lev xs ys + 1) ≤ lev (x :: xs) ys + 1 :=
            le_trans (min_le_left _ _) (min_le_right _ _)
          omega

end Chemfiles

namespace Chemfiles

/-- Convenient wrapper for `lev_le_of_align`. -/
theorem lev_min {xs ys : List Char} {n : Nat} (h : Align xs ys n) :
    lev xs ys ≤ n :=
  lev_le_of_align (xs.length + ys.length) xs ys n (Nat.le_refl _) h

theorem lowerEq_symm {x y : Char} (h : lowerEq x y = true) :
    lowerEq y x = true := by
  simp [lowerEq] at h ⊢
  exact h.symm

theorem lowerEq_trans {x y z : Char} (h1 : lowerEq x y = true)
    (h2 : lowerEq y z = true) : lowerEq x z = true := by
  simp [lowerEq] at h1 h2 ⊢
  exact h1.trans h2

/-- Alignments flip. -/
theorem align_flip {xs ys : List Char} {n : Nat} (h : Align xs ys n) :
    Align ys xs n := by
  induction h with
  | nil => exact .nil
  | copy hc _ ih => exact .copy (lowerEq_symm hc) ih
  | subst _ ih => exact .subst ih
  | del _ ih => exact .ins ih
  | ins _ ih => exact .del ih

/-- Alignments compose, at most additively in cost. -/
theorem align_trans :
    ∀ N (xs ys zs : List Char) (m n : Nat),
      xs.length + ys.length + zs.length ≤ N →
      Align xs ys m → Align ys zs n → ∃ k, k ≤ m + n ∧ Align xs zs k := by
  intro N
  induction N with
  | zero =>
    intro xs ys zs m n hlen h1 h2
    have hx : xs = [] := by
      have : xs.length = 0 := by omega
      simpa using this
    have hz : zs = [] := by
      have : zs.length = 0 := by omega
      simpa using this
    subst hx; subst hz
    exact ⟨0, Nat.zero_le _, .nil⟩
  | succ N ih =>
    intro xs ys zs m n hlen h1 h2
    cases h2 with
    | nil => exact ⟨m, by omega, h1⟩
    | ins hsub2 =>
      obtain ⟨k, hk, ha⟩ := ih xs ys _ m _ (by simp at hlen ⊢; omega) h1 hsub2
      exact ⟨k + 1, by omega, .ins ha⟩
    | copy hc2 hsub2 =>
      cases h1 with
      | copy hc1 hsub1 =>
        obtain ⟨k, hk, ha⟩ :=
          ih _ _ _ _ _ (by simp at hlen ⊢; omega) hsub1 hsub2
        exact ⟨k, by omega, .copy (lowerEq_trans hc1 hc2) ha⟩
      | subst hsub1 =>
        obtain ⟨k, hk, ha⟩ :=
          ih _ _ _ _ _ (by simp at hlen ⊢; omega) hsub1 hsub2
        exact ⟨k + 1, by omega, .subst ha⟩
      | del hsub1 =>
        obtain ⟨k, hk, ha⟩ :=
          ih _ _ _ _ _ (by simp at hlen ⊢; omega) hsub1 (Align.copy hc2 hsub2)
        exact ⟨k + 1, by omega, .del ha⟩
      | ins hsub1 =>
        obtain ⟨k, hk, ha⟩ :=
          ih _ _ _ _ _ (by simp at hlen ⊢; omega) hsub1 hsub2
        exact ⟨k + 1, by omega, .ins ha⟩
    | subst hsub2 =>
      cases h1 with
      | copy hc1 hsub1 =>
        obtain ⟨k, hk, ha⟩ :=
          ih _ _ _ _ _ (by simp at hlen ⊢; omega) hsub1 hsub2
        exact ⟨k + 1, by omega, .subst ha⟩
      | subst hsub1 =>
        obtain ⟨k, hk, ha⟩ :=
          ih _ _ _ _ _ (by simp at hlen ⊢; omega) hsub1 hsub2
        exact ⟨k + 1, by omega, .subst ha⟩
      | del hsub1 =>
        obtain ⟨k, hk, ha⟩ :=
          ih _ _ _ _ _ (by simp at hlen ⊢; omega) hsub1 (Align.subst hsub2)
        exact ⟨k + 1, by omega, .del ha⟩
      | ins hsub1 =>
        obtain ⟨k, hk, ha⟩ :=
          ih _ _ _ _ _ (by simp at hlen ⊢; omega) hsub1 hsub2
        exact ⟨k + 1, by omega, .ins ha⟩
    | del hsub2 =>
      cases h1 with
      | copy hc1 hsub1 =>
        obtain ⟨k, hk, ha⟩ :=
          ih _ _ _ _ _ (by simp at hlen ⊢; omega) hsub1 hsub2
        exact ⟨k + 1, by omega, .del ha⟩
      | subst hsub1 =>
        obtain ⟨k, hk, ha⟩ :=
          ih _ _ _ _ _ (by simp at hlen ⊢; omega) hsub1 hsub2
        exact ⟨k + 1, by omega, .del ha⟩
      | del hsub1 =>
        obtain ⟨k, hk, ha⟩ :=
          ih _ _ _ _ _ (by simp at hlen ⊢; omega) hsub1 (Align.del hsub2)
        exact ⟨k + 1, by omega, .del ha⟩
      | ins hsub1 =>
        obtain ⟨k, hk, ha⟩ :=
          ih _ _ _ _ _ (by simp at hlen ⊢; omega) hsub1 hsub2
        exact ⟨k, by omega, ha⟩

/-- Symmetry of the reference edit distance. -/
theorem lev_symm (xs ys : List Char) : lev xs ys = lev ys xs :=
  Nat.le_antisymm (lev_min (align_flip (align_lev ys xs)))
    (lev_min (align_flip (align_lev xs ys)))

/-- Triangle inequality of the reference edit distance. -/
theorem lev_triangle (xs ys zs : List Char) :
    lev xs zs ≤ lev xs ys + lev ys zs := by
  obtain ⟨k, hk, ha⟩ :=
    align_trans (xs.length + ys.length + zs.length) xs ys zs _ _
      (Nat.le_refl _) (align_lev xs ys) (align_lev ys zs)
  exact le_trans (lev_min ha) hk

theorem align_snoc_copy {xs ys : List Char} {n : Nat} {x y : Char}
    (h : Align xs ys n) (hc : lowerEq x y = true) :
    Align (xs ++ [x]) (ys ++ [y]) n := by
  induction h with
  | nil => exact .copy hc .nil
  | copy hc1 _ ih => exact .copy hc1 ih
  | subst _ ih => exact .subst ih
  | del _ ih => exact .del ih
  | ins _ ih => exact .ins ih

theorem align_snoc_del {xs ys : List Char} {n : Nat} {x : Char}
    (h : Align xs ys n) : Align (xs ++ [x]) ys (n + 1) := by
  induction h with
  | nil => exact .del .nil
  | copy hc1 _ ih => exact .copy hc1 ih
  | subst _ ih => exact .subst ih
  | del _ ih => exact .del ih
  | ins _ ih => exact .ins ih

theorem align_snoc_ins {xs ys : List Char} {n : Nat} {y : Char}
    (h : Align xs ys n) : Align xs (ys ++ [y]) (n + 1) := by
  induction h with
  | nil => exact .ins .nil
  | copy hc1 _ ih => exact .copy hc1 ih
  | subst _ ih => exact .subst ih
  | del _ ih => exact .del ih
  | ins _ ih => exact .ins ih

theorem align_snoc_subst {xs ys : List Char} {n : Nat} {x y : Char}
    (h : Align xs ys n) : Align (xs ++ [x]) (ys ++ [y]) (n + 1) := by
  induction h with
  | nil => exact .subst .nil
  | copy hc1 _ ih => exact .copy hc1 ih
  | subst _ ih => exact .subst ih
  | del _ ih => exact .del ih
  | ins _ ih => exact .ins ih

/-- Alignments are preserved by simultaneous reversal. -/
theorem align_reverse {xs ys : List Char} {n : Nat} (h : Align xs ys n) :
    Align xs.reverse ys.reverse n := by
  induction h with
  | nil => exact .nil
  | copy hc _ ih => simpa [List.reverse_cons] using align_snoc_copy ih hc
  | subst _ ih => simpa [List.reverse_cons] using align_snoc_subst ih
  | del _ ih => simpa [List.reverse_cons] using align_snoc_del ih
  | ins _ ih => simpa [List.reverse_cons] using align_snoc_ins ih

/-- The reference edit distance is invariant under simultaneous reversal. -/
theorem lev_reverse (xs ys : List Char) :
    lev xs.reverse ys.reverse = lev xs ys := by
  apply Nat.le_antisymm
  · exact lev_min (align_reverse (align_lev xs ys))
  · have := lev_min (align_reverse (align_lev xs.reverse ys.reverse))
    simpa using this

end Chemfiles

namespace Chemfiles

/-- The Wagner–Fischer matrix cell `(i, j)` holds the reference edit
distance of the (reversed) first `i` characters of `a` and first `j`
characters of `b`. -/
theorem distMat_eq_lev (a b : List Char) :
    ∀ i, i ≤ a.length → ∀ j, j ≤ b.length →
      distMat a b i j = lev ((a.take i).reverse) ((b.take j).reverse) := by
  intro i
  induction i with
  | zero =>
    intro _ j hj
    show j = lev [] ((b.take j).reverse)
    rw [lev]
    simp [Nat.min_eq_left hj]
  | succ i ihi =>
    intro hi j
    induction j with
    | zero =>
      intro _
      show distRow a b i (distMat a b i) 0 = _
      rw [distRow]
      simp [lev_nil_right, Nat.min_eq_left hi]
    | succ j ihj =>
      intro hj
      have hia : i < a.length := by omega
      have hjb : j < b.length := by omega
      have hta : (a.take (i + 1)).reverse = a[i] :: (a.take i).reverse := by
        rw [List.take_succ]
        simp [List.getElem?_eq_getElem hia]
      have htb : (b.take (j + 1)).reverse = b[j] :: (b.take j).reverse := by
        rw [List.take_succ]
        simp [List.getElem?_eq_getElem hjb]
      have hgd : distRow a b i (distMat a b i) (j + 1)
          = if lowerEq a[i] b[j] then distMat a b i j
            else min (min (distMat a b i (j + 1) + 1) (distMat a b (i + 1) j + 1))
              (distMat a b i j + 1) := by
        rw [distRow, List.getD_eq_getElem a ' ' hia, List.getD_eq_getElem b ' ' hjb]
        rfl
      have hlev : lev (a[i] :: (a.take i).reverse) (b[j] :: (b.take j).reverse)
          = if lowerEq a[i] b[j] then lev ((a.take i).reverse) ((b.take j).reverse)
            else min (min (lev ((a.take i).reverse) (b[j] :: (b.take j).reverse) + 1)
              (lev (a[i] :: (a.take i).reverse) ((b.take j).reverse) + 1))
              (lev ((a.take i).reverse) ((b.take j).reverse) + 1) := by
        rw [lev]
      show distRow a b i (distMat a b i) (j + 1) = _
      rw [hta, htb, hgd, hlev]
      have e1 : distMat a b i j = lev ((a.take i).reverse) ((b.take j).reverse) :=
        ihi (by omega) j (by omega)
      have e2 : distMat a b i (j + 1)
          = lev ((a.take i).reverse) (b[j] :: (b.take j).reverse) := by
        rw [ihi (by omega) (j + 1) hj, htb]
      have e3 : distMat a b (i + 1) j
          = lev (a[i] :: (a.take i).reverse) ((b.take j).reverse) := by
        rw [ihj (by omega), hta]
      rw [e1, e2, e3]

/-- `edit_distance` computes the classic (case-insensitive) Levenshtein
distance of its two arguments. -/
theorem edit_distance_eq_lev (a b : String) :
    edit_distance a b = lev a.data b.data := by
  unfold edit_distance
  have h := distMat_eq_lev a.data b.data a.data.length (Nat.le_refl _)
      b.data.length (Nat.le_refl _)
  have ha : a.length = a.data.length := rfl
  have hb : b.length = b.data.length := rfl
  rw [ha, hb, h, List.take_length, List.take_length, lev_reverse]

end Chemfiles

namespace Chemfiles

/-- The suggestion-collection loop gathers exactly the registered names
within edit distance < 4 of the query, in order. -/
theorem collect_suggestions_eq (formats : List RegisteredFormat) (q : String) :
    collect_suggestions formats q
      = (formats.map (fun f => f.info.name)).filter
          (fun n => edit_distance q n < 4) := by
  induction formats with
  | nil => rfl
  | cons f fs ih =>
    show (if edit_distance q f.info.name < 4
        then f.info.name :: collect_suggestions fs q
        else collect_suggestions fs q) = _
    rw [List.map_cons, List.filter_cons]
    by_cases hd : edit_distance q f.info.name < 4
    · rw [if_pos hd, ih]
      simp [hd]
    · rw [if_neg hd, ih]
      simp [hd]

end Chemfiles

/-- C5: `edit_distance` is the classic Wagner–Fischer edit distance with
unit insertion/deletion/substitution cost and case-insensitive character
comparison (it equals the recursive reference Levenshtein distance `lev`);
it is symmetric and satisfies the triangle inequality; and
`edit_distance "gro" "gro" = 0`, `edit_distance "xyz" "xtc" = 2`. -/
theorem C5_edit_distance_metric :
    (∀ a b : String, Chemfiles.edit_distance a b = Chemfiles.lev a.data b.data) ∧
    (∀ a b : String, Chemfiles.edit_distance a b = Chemfiles.edit_distance b a) ∧
    (∀ a b c : String,
      Chemfiles.edit_distance a c
        ≤ Chemfiles.edit_distance a b + Chemfiles.edit_distance b c) ∧
    Chemfiles.edit_distance "gro" "gro" = 0 ∧
    Chemfiles.edit_distance "xyz" "xtc" = 2 := by
  refine ⟨Chemfiles.edit_distance_eq_lev, ?_, ?_, by decide, by decide⟩
  · intro a b
    rw [Chemfiles.edit_distance_eq_lev, Chemfiles.edit_distance_eq_lev,
      Chemfiles.lev_symm]
  · intro a b c
    rw [Chemfiles.edit_distance_eq_lev, Chemfiles.edit_distance_eq_lev,
      Chemfiles.edit_distance_eq_lev]
    exact Chemfiles.lev_triangle _ _ _

/-- C9: the edit distance between the empty string and any string `s` (in
either argument order) is the length of `s`. -/
theorem C9_edit_distance_empty (s : String) :
    Chemfiles.edit_distance "" s = s.length ∧
    Chemfiles.edit_distance s "" = s.length := by
  constructor
  · rw [Chemfiles.edit_distance_eq_lev]
    show Chemfiles.lev [] s.data = s.length
    rw [Chemfiles.lev]
    rfl
  · rw [Chemfiles.edit_distance_eq_lev]
    show Chemfiles.lev s.data [] = s.length
    rw [Chemfiles.lev_nil_right]
    rfl

/-- C3: `FormatFactory::name(q)` returns the creator of the registered
format whose name equals `q` exactly (case-sensitive); otherwise it fails
with a `FormatError` whose message lists, as a "did you mean A or B?"
suffix, exactly the registered names whose (case-insensitive) edit
distance to `q` is strictly below 4 — with no suffix at all when no name
qualifies. -/
theorem C3_lookup_by_name_correct (formats : List Chemfiles.RegisteredFormat)
    (q : String) :
    ((∃ f ∈ formats, f.info.name = q) →
      ∃ f, f ∈ formats ∧ f.info.name = q ∧
        Chemfiles.FormatFactory.name formats q = .ok f.creator) ∧
    ((∀ f ∈ formats, f.info.name ≠ q) →
      Chemfiles.FormatFactory.name formats q = .error (.format
        (if ((formats.map (fun f => f.info.name)).filter
              (fun n => Chemfiles.edit_distance q n < 4)).isEmpty
         then "can not find a format named '" ++ q ++ "'"
         else ("can not find a format named '" ++ q ++ "'") ++ ", did you mean"
           ++ Chemfiles.joinSuggestions
                ((formats.map (fun f => f.info.name)).filter
                  (fun n => Chemfiles.edit_distance q n < 4)) ++ "?"))) := by
  constructor
  · rintro ⟨f, hf, hname⟩
    unfold Chemfiles.FormatFactory.name
    cases hn : Chemfiles.find_by_name formats q with
    | none =>
      exact absurd hn (Chemfiles.find_by_name_ne_none formats q f hf hname)
    | some idx =>
      obtain ⟨hlt, hname2, hmem⟩ := Chemfiles.find_by_name_some formats q idx hn
      exact ⟨formats.getD idx default, hmem, hname2, rfl⟩
  · intro hnone
    unfold Chemfiles.FormatFactory.name
    rw [Chemfiles.find_by_name_eq_none formats q hnone]
    unfold Chemfiles.suggest_names
    rw [Chemfiles.collect_suggestions_eq]

/-- Witness for C3, matching the spec's own example: on a registry holding
only "XYZ", looking up "XYZ" returns its creator, and looking up the
absent "XTC" fails with a message suggesting "XYZ"
(`edit_distance "XTC" "XYZ" = 2 < 4`). -/
theorem C3_lookup_by_name_correct_witness :
    (∃ f, f ∈ [Chemfiles.xyzEntry] ∧ f.info.name = "XYZ" ∧
      Chemfiles.FormatFactory.name [Chemfiles.xyzEntry] "XYZ" = .ok f.creator) ∧
    Chemfiles.FormatFactory.name [Chemfiles.xyzEntry] "XTC"
      = .error (.format
          "can not find a format named 'XTC', did you mean 'XYZ'?") := by
  constructor
  · exact (C3_lookup_by_name_correct [Chemfiles.xyzEntry] "XYZ").1
      ⟨Chemfiles.xyzEntry, by simp, rfl⟩
  · have h := (C3_lookup_by_name_correct [Chemfiles.xyzEntry] "XTC").2
      (by intro f hf; simp at hf; subst hf; decide)
    rw [h]
    rfl
